import Mathlib

/-
Verification of the secondary-indexed bucket (packages/storage/src/indexed_bucket.rs)
against its design specification.

The backing byte store is modelled as an association list from byte-string keys to
byte-string values (most recent binding first).  Byte strings are lists of naturals;
where the implementation wraps machine bytes we take the value modulo 256 explicitly.
The helper modules of the repository that are not part of the shown source
(namespace_helpers, type_helpers, serialization) are modelled from the spec; each such
definition carries a comment saying so.
-/

abbrev Bytes : Type := List Nat

abbrev Store : Type := List (Bytes × Bytes)

/-- Error kinds of the storage layer, as listed in the spec. -/
inductive StdErr : Type
  | notFound
  | deserialization
  | underlying
deriving DecidableEq, Repr

/-- Scan direction of the backing store. -/
inductive ScanOrder : Type
  | ascending
  | descending
deriving DecidableEq, Repr

/- Byte-lexicographic order on keys, as used by the backing store. -/

def lexLt : List Nat → List Nat → Bool
  | _, [] => false
  | [], _ :: _ => true
  | a :: as, b :: bs => if a < b then true else if a = b then lexLt as bs else false

def lexLe (a b : List Nat) : Bool := if a = b then true else lexLt a b

/- The flat byte store: get / set / remove / scan. -/

def sget : Store → Bytes → Option Bytes
  | [], _ => none
  | (k, v) :: rest, key => if k = key then some v else sget rest key

def serase : Store → Bytes → Store
  | [], _ => []
  | (k, v) :: rest, key => if k = key then serase rest key else (k, v) :: serase rest key

def sset (s : Store) (key val : Bytes) : Store := (key, val) :: serase s key

def sremove (s : Store) (key : Bytes) : Store := serase s key

def insertByKey (kv : Bytes × Bytes) : Store → Store
  | [] => [kv]
  | kv2 :: rest => if lexLt kv2.1 kv.1 then kv2 :: insertByKey kv rest else kv :: kv2 :: rest

def sortByKey (s : Store) : Store := s.foldr insertByKey []

/-- Modelled from the spec: the backing store exposes
scan(start, end, order) returning the bound entries ordered by key. -/
def scan (s : Store) (start stop : Option Bytes) (order : ScanOrder) : List (Bytes × Bytes) :=
  let inB : Bytes × Bytes → Bool := fun kv =>
    (match start with | some a => lexLe a kv.1 | none => true) &&
    (match stop with | some e => lexLt kv.1 e | none => true)
  let asc := sortByKey (s.filter inB)
  match order with
  | ScanOrder.ascending => asc
  | ScanOrder.descending => asc.reverse

/- Length-prefixed key framing (to_length_prefixed / to_length_prefixed_nested).
These live outside the shown source; modelled from the spec: frame(x) prepends a
fixed-width (two byte, big endian) length field before the bytes of x. -/

def encode_length (n : Nat) : Bytes := [n / 256 % 256, n % 256]

def to_length_prefixed (x : Bytes) : Bytes := encode_length x.length ++ x

def to_length_prefixed_nested (xs : List Bytes) : Bytes :=
  (xs.map to_length_prefixed).flatten

/-- Modelled from the spec: the correct exclusive upper bound for a prefix scan --
strip trailing maximum-value bytes and increment the last non-maximum byte, or
none (unbounded) when the whole prefix consists of maximum-value bytes. -/
def prefix_upper_bound_aux : List Nat → Option (List Nat)
  | [] => none
  | x :: rest => if x = 255 then prefix_upper_bound_aux rest else some ((x + 1) :: rest)

def prefix_upper_bound (b : Bytes) : Option Bytes :=
  (prefix_upper_bound_aux b.reverse).map List.reverse

/- Prefixed access to the flat store (namespace_helpers).  Modelled from the spec:
a sub-space access prepends the sub-space prefix to the logical key; a sub-space
scan bounds the flat scan relative to the prefix and strips the prefix from each
yielded key. -/

def get_with_prefixed (s : Store) (pre k : Bytes) : Option Bytes := sget s (pre ++ k)

def set_with_prefixed (s : Store) (pre k v : Bytes) : Store := sset s (pre ++ k) v

def remove_with_prefixed (s : Store) (pre k : Bytes) : Store := serase s (pre ++ k)

/-- Modelled from the spec: start bound of a sub-space scan, relative to the prefix. -/
def calc_start_bound (namespc : Bytes) : Option Bytes → Bytes
  | none => namespc
  | some k => namespc ++ k

/-- Modelled from the spec: end bound of a sub-space scan; an absent bound means the
whole sub-space, delimited by the byte-string successor of the prefix. -/
def calc_end_bound (namespc : Bytes) : Option Bytes → Option Bytes
  | none => prefix_upper_bound namespc
  | some k => some (namespc ++ k)

/-- Modelled from the spec: range_with_prefix scans the sub-space of the given prefix
between the (prefix-relative) bounds and strips the prefix from each yielded key. -/
def range_with_prefixed (s : Store) (namespc : Bytes) (start stop : Option Bytes)
    (order : ScanOrder) : List (Bytes × Bytes) :=
  (scan s (some (calc_start_bound namespc start)) (calc_end_bound namespc stop) order).map
    (fun kv => (kv.1.drop namespc.length, kv.2))

/- The IndexedBucket itself (from src/packages/storage/src/indexed_bucket.rs).
A bucket is a stateless view: the namespace (from which the two prefixes are
computed exactly as in new()), the indexer, and the serialization capability.
Serialization is modelled from the spec: serialize is total (it fails only on
programmer error, treated as fatal) and deserialize yields none on malformed bytes. -/

structure Bucket (T : Type) : Type where
  ser : T → Bytes
  deser : Bytes → Option T
  indexer : T → Bytes
  ns : Bytes

def prefix_pk (ns : Bytes) : Bytes := to_length_prefixed_nested [ns, [112, 107]]

def prefix_idx (ns : Bytes) : Bytes := to_length_prefixed_nested [ns, [105, 100, 120]]

def index_space (ns idx : Bytes) : Bytes := prefix_idx ns ++ to_length_prefixed idx

/-- Modelled from the spec (type_helpers): parse when present, empty when missing,
Deserialization error on malformed bytes. -/
def may_deserialize {T : Type} (deser : Bytes → Option T) :
    Option Bytes → Except StdErr (Option T)
  | some b => match deser b with
    | some t => Except.ok (some t)
    | none => Except.error StdErr.deserialization
  | none => Except.ok none

/-- Modelled from the spec (type_helpers): parse when present, NotFound when missing,
Deserialization error on malformed bytes. -/
def must_deserialize {T : Type} (deser : Bytes → Option T) :
    Option Bytes → Except StdErr T
  | some b => match deser b with
    | some t => Except.ok t
    | none => Except.error StdErr.deserialization
  | none => Except.error StdErr.notFound

def load {T : Type} (B : Bucket T) (s : Store) (key : Bytes) : Except StdErr T :=
  must_deserialize B.deser (get_with_prefixed s (prefix_pk B.ns) key)

def may_load {T : Type} (B : Bucket T) (s : Store) (key : Bytes) : Except StdErr (Option T) :=
  may_deserialize B.deser (get_with_prefixed s (prefix_pk B.ns) key)

def add_to_index {T : Type} (B : Bucket T) (s : Store) (idx key : Bytes) : Store :=
  set_with_prefixed s (index_space B.ns idx) key [49]

def remove_from_index {T : Type} (B : Bucket T) (s : Store) (idx key : Bytes) : Store :=
  remove_with_prefixed s (index_space B.ns idx) key

/-- replace, translated from the source: drop the old index entry when old_data is
given, then either add the new index entry and write the serialized value, or
delete the primary entry.  With serialization total it cannot fail. -/
def replace {T : Type} (B : Bucket T) (s : Store) (key : Bytes) (data old_data : Option T) :
    Store :=
  let s1 := match old_data with
    | some old => remove_from_index B s (B.indexer old) key
    | none => s
  match data with
  | some updated =>
      set_with_prefixed (add_to_index B s1 (B.indexer updated) key)
        (prefix_pk B.ns) key (B.ser updated)
  | none => remove_with_prefixed s1 (prefix_pk B.ns) key

def save {T : Type} (B : Bucket T) (s : Store) (key : Bytes) (data : T) :
    Except StdErr Unit × Store :=
  match may_load B s key with
  | Except.error e => (Except.error e, s)
  | Except.ok old_data => (Except.ok (), replace B s key (some data) old_data)

def remove {T : Type} (B : Bucket T) (s : Store) (key : Bytes) :
    Except StdErr Unit × Store :=
  match may_load B s key with
  | Except.error e => (Except.error e, s)
  | Except.ok old_data => (Except.ok (), replace B s key none old_data)

/-- update, translated from the source: load, compute the old index value, run the
action, on success manually remove the old index entry and replace with no old_data. -/
def update {T E : Type} (B : Bucket T) (fromStd : StdErr → E) (s : Store) (key : Bytes)
    (action : Option T → Except E T) : Except E T × Store :=
  match may_load B s key with
  | Except.error e => (Except.error (fromStd e), s)
  | Except.ok input =>
    let old_idx := input.map B.indexer
    match action input with
    | Except.error e => (Except.error e, s)
    | Except.ok output =>
      let s1 := match old_idx with
        | some idx => remove_from_index B s idx key
        | none => s
      (Except.ok output, replace B s1 key (some output) none)

/-- The naive upper-bound computation of pks_by_index in the source: increment the
last byte in place (machine-byte arithmetic, so 255 wraps to 0). -/
def bump_last : Bytes → Bytes
  | [] => []
  | [x] => [(x + 1) % 256]
  | x :: y :: rest => x :: bump_last (y :: rest)

/-- pks_by_index, translated from the source: start is the full index_space of idx,
end is start with its last byte incremented, and the scan goes through
range_with_prefixed with the bucket's index prefix, ascending. -/
def pks_by_index {T : Type} (B : Bucket T) (s : Store) (idx : Bytes) : List Bytes :=
  let start := index_space B.ns idx
  let stop := bump_last start
  (range_with_prefixed s (prefix_idx B.ns) (some start) (some stop)
    ScanOrder.ascending).map (fun kv => kv.1)

/- Basic lemmas about the flat store. -/

theorem sget_serase (s : Store) (k k2 : Bytes) :
    sget (serase s k) k2 = if k2 = k then none else sget s k2 := by
  induction s with
  | nil =>
    simp only [serase, sget]
    split <;> rfl
  | cons kv rest ih =>
    obtain ⟨a, b⟩ := kv
    simp only [serase]
    by_cases ha : a = k
    · rw [if_pos ha, ih]
      subst ha
      by_cases hb : k2 = a
      · rw [if_pos hb, if_pos hb]
      · rw [if_neg hb, if_neg hb]
        simp only [sget]
        rw [if_neg (fun h2 => hb h2.symm)]
    · rw [if_neg ha]
      simp only [sget]
      rw [ih]
      by_cases hb : k2 = k
      · subst hb
        rw [if_neg (fun h2 : a = k2 => ha h2), if_pos rfl, if_pos rfl]
      · rw [if_neg hb, if_neg hb]

theorem sget_sset (s : Store) (k v k2 : Bytes) :
    sget (sset s k v) k2 = if k2 = k then some v else sget s k2 := by
  unfold sset
  simp only [sget]
  by_cases h : k2 = k
  · rw [if_pos h.symm, if_pos h]
  · rw [if_neg (fun h2 => h h2.symm), if_neg h, sget_serase, if_neg h]

theorem serase_eq_self (s : Store) (k : Bytes) (h : sget s k = none) : serase s k = s := by
  induction s with
  | nil => rfl
  | cons kv rest ih =>
    obtain ⟨a, b⟩ := kv
    simp only [sget] at h
    by_cases ha : a = k
    · rw [if_pos ha] at h
      exact absurd h (by simp)
    · rw [if_neg ha] at h
      simp only [serase]
      rw [if_neg ha, ih h]

/- Injectivity of the length-prefixed key encoding. -/

theorem encode_length_len (n : Nat) : (encode_length n).length = 2 := by
  simp [encode_length]

theorem encode_length_inj (m n : Nat) (hm : m < 65536) (hn : n < 65536)
    (h : encode_length m = encode_length n) : m = n := by
  simp only [encode_length, List.cons.injEq, and_true] at h
  omega

theorem framed_append_inj (i j k l : Bytes) (hi : i.length < 65536) (hj : j.length < 65536)
    (h : to_length_prefixed i ++ k = to_length_prefixed j ++ l) : i = j ∧ k = l := by
  unfold to_length_prefixed at h
  rw [List.append_assoc, List.append_assoc] at h
  obtain ⟨h1, h2⟩ := List.append_inj h (by rw [encode_length_len, encode_length_len])
  have hlen : i.length = j.length := encode_length_inj _ _ hi hj h1
  exact List.append_inj h2 hlen

theorem index_space_inj (ns i j k l : Bytes) (hi : i.length < 65536) (hj : j.length < 65536)
    (h : index_space ns i ++ k = index_space ns j ++ l) : i = j ∧ k = l := by
  unfold index_space at h
  rw [List.append_assoc, List.append_assoc] at h
  exact framed_append_inj i j k l hi hj (List.append_cancel_left h)

theorem pk_ne_index_space (ns a idx b : Bytes) :
    prefix_pk ns ++ a ≠ index_space ns idx ++ b := by
  intro h
  unfold prefix_pk index_space prefix_idx to_length_prefixed_nested at h
  simp only [List.map, List.flatten, List.append_nil, List.append_assoc] at h
  have h2 := List.append_cancel_left h
  simp [to_length_prefixed, encode_length] at h2

/- The index-consistency invariant (spec section 3, invariant 2). -/

/-- pk currently holds the value v: the primary sub-space has bytes for pk that
deserialize to v. -/
def storedAs {T : Type} (B : Bucket T) (s : Store) (key : Bytes) (v : T) : Prop :=
  ∃ b, sget s (prefix_pk B.ns ++ key) = some b ∧ B.deser b = some v

/-- Strong form of the invariant: the index sub-space is exactly the set of markers
(indexer v, pk) for the currently stored values, over index values of encodable length. -/
def StrongInv {T : Type} (B : Bucket T) (s : Store) : Prop :=
  ∀ idx key : Bytes, idx.length < 65536 →
    ((sget s (index_space B.ns idx ++ key)).isSome = true ↔
      ∃ v, storedAs B s key v ∧ B.indexer v = idx)

/-- The claim's form of the invariant: every stored pk has its marker under its
current index value and under no other index value. -/
def IndexConsistent {T : Type} (B : Bucket T) (s : Store) : Prop :=
  ∀ key v, storedAs B s key v →
    (sget s (index_space B.ns (B.indexer v) ++ key)).isSome = true ∧
    ∀ idx, idx.length < 65536 → idx ≠ B.indexer v →
      sget s (index_space B.ns idx ++ key) = none

/-- The precondition of replace: the supplied old_data is the value actually stored. -/
def matchesStored {T : Type} (B : Bucket T) (s : Store) (key : Bytes) : Option T → Prop
  | some o => storedAs B s key o
  | none => sget s (prefix_pk B.ns ++ key) = none

/-- Round-trip contract of the serialization capability. -/
def RoundTrip {T : Type} (B : Bucket T) : Prop := ∀ t : T, B.deser (B.ser t) = some t

/-- Every index value produced by the indexer fits in the length field. -/
def IdxBounded {T : Type} (B : Bucket T) : Prop := ∀ v : T, (B.indexer v).length < 65536

theorem stored_unique {T : Type} (B : Bucket T) (s : Store) (key : Bytes) (v w : T)
    (hv : storedAs B s key v) (hw : storedAs B s key w) : v = w := by
  obtain ⟨b, hb, hd⟩ := hv
  obtain ⟨b2, hb2, hd2⟩ := hw
  rw [hb] at hb2
  obtain rfl : b = b2 := Option.some.inj hb2
  rw [hd] at hd2
  exact Option.some.inj hd2

theorem strongInv_indexConsistent {T : Type} (B : Bucket T) (s : Store)
    (hB : IdxBounded B) (h : StrongInv B s) : IndexConsistent B s := by
  intro key v hv
  constructor
  · exact (h (B.indexer v) key (hB v)).mpr ⟨v, hv, rfl⟩
  · intro idx hlen hne
    by_contra hne2
    have hsome : (sget s (index_space B.ns idx ++ key)).isSome = true := by
      cases hcase : sget s (index_space B.ns idx ++ key) with
      | none => exact absurd hcase hne2
      | some b => rfl
    obtain ⟨w, hw, hwi⟩ := (h idx key hlen).mp hsome
    exact hne ((stored_unique B s key w v hw hv) ▸ hwi).symm

theorem may_load_ok_some {T : Type} (B : Bucket T) (s : Store) (key : Bytes) (o : T) :
    may_load B s key = Except.ok (some o) ↔ storedAs B s key o := by
  unfold may_load may_deserialize get_with_prefixed storedAs
  cases hg : sget s (prefix_pk B.ns ++ key) with
  | none => simp
  | some b =>
    cases hd : B.deser b with
    | none => simp [hd]
    | some t =>
      simp [hd]

theorem may_load_ok_none {T : Type} (B : Bucket T) (s : Store) (key : Bytes) :
    may_load B s key = Except.ok none ↔ sget s (prefix_pk B.ns ++ key) = none := by
  unfold may_load may_deserialize get_with_prefixed
  cases hg : sget s (prefix_pk B.ns ++ key) with
  | none => simp
  | some b =>
    cases hd : B.deser b with
    | none => simp [hd]
    | some t => simp [hd]

theorem may_load_ok_matches {T : Type} (B : Bucket T) (s : Store) (key : Bytes)
    (old : Option T) (h : may_load B s key = Except.ok old) : matchesStored B s key old := by
  cases old with
  | none => exact (may_load_ok_none B s key).mp h
  | some o => exact (may_load_ok_some B s key o).mp h

/- Preservation of the invariant by the mutating operations. -/

/-- No index entry at all exists for the primary key k. -/
def NoIdx {T : Type} (B : Bucket T) (s : Store) (k : Bytes) : Prop :=
  ∀ idx : Bytes, idx.length < 65536 → sget s (index_space B.ns idx ++ k) = none

/-- The strong invariant restricted to all primary keys other than k. -/
def InvAway {T : Type} (B : Bucket T) (s : Store) (k : Bytes) : Prop :=
  ∀ idx key : Bytes, idx.length < 65536 → key ≠ k →
    ((sget s (index_space B.ns idx ++ key)).isSome = true ↔
      ∃ v, storedAs B s key v ∧ B.indexer v = idx)

theorem index_ne_pk {T : Type} (B : Bucket T) (idx key a : Bytes) :
    index_space B.ns idx ++ key ≠ prefix_pk B.ns ++ a :=
  fun h => pk_ne_index_space B.ns a idx key h.symm

theorem sget_isSome_none (o : Option Bytes) (h : ¬o.isSome = true) : o = none := by
  cases o with
  | none => rfl
  | some b => exact absurd rfl h

theorem clear_none {T : Type} (B : Bucket T) (s : Store) (k : Bytes)
    (hInv : StrongInv B s) (h : sget s (prefix_pk B.ns ++ k) = none) :
    NoIdx B s k ∧ InvAway B s k := by
  constructor
  · intro idx hlen
    apply sget_isSome_none
    intro hsome
    obtain ⟨v, ⟨b, hb, _⟩, _⟩ := (hInv idx k hlen).mp hsome
    rw [h] at hb
    exact Option.noConfusion hb
  · intro idx key hlen _
    exact hInv idx key hlen

theorem clear_some {T : Type} (B : Bucket T) (s : Store) (k : Bytes) (o : T)
    (hB : IdxBounded B) (hInv : StrongInv B s) (h : storedAs B s k o) :
    NoIdx B (remove_from_index B s (B.indexer o) k) k ∧
    InvAway B (remove_from_index B s (B.indexer o) k) k := by
  unfold remove_from_index remove_with_prefixed
  constructor
  · intro idx hlen
    rw [sget_serase]
    by_cases he : index_space B.ns idx ++ k = index_space B.ns (B.indexer o) ++ k
    · rw [if_pos he]
    · rw [if_neg he]
      apply sget_isSome_none
      intro hsome
      obtain ⟨v, hv, hvi⟩ := (hInv idx k hlen).mp hsome
      have : v = o := stored_unique B s k v o hv h
      exact he (by rw [hvi.symm, this])
  · intro idx key hlen hne
    have hidx : index_space B.ns idx ++ key ≠ index_space B.ns (B.indexer o) ++ k := by
      intro he
      exact hne (index_space_inj B.ns idx (B.indexer o) key k hlen (hB o) he).2
    have hpk : prefix_pk B.ns ++ key ≠ index_space B.ns (B.indexer o) ++ k :=
      pk_ne_index_space B.ns key (B.indexer o) k
    rw [sget_serase, if_neg hidx]
    have hstore : ∀ v, storedAs B (serase s (index_space B.ns (B.indexer o) ++ k)) key v ↔
        storedAs B s key v := by
      intro v
      unfold storedAs
      rw [sget_serase, if_neg hpk]
    simp only [hstore]
    exact hInv idx key hlen

theorem writeNew_inv {T : Type} (B : Bucket T) (s : Store) (k : Bytes) (d : T)
    (hB : IdxBounded B) (hRT : RoundTrip B)
    (hNo : NoIdx B s k) (hAway : InvAway B s k) :
    StrongInv B (set_with_prefixed (add_to_index B s (B.indexer d) k)
      (prefix_pk B.ns) k (B.ser d)) := by
  intro idx key hlen
  unfold set_with_prefixed add_to_index set_with_prefixed
  rw [sget_sset, if_neg (index_ne_pk B idx key k), sget_sset]
  have hprim : sget (sset (sset s (index_space B.ns (B.indexer d) ++ k) [49])
      (prefix_pk B.ns ++ k) (B.ser d)) (prefix_pk B.ns ++ key) =
      if key = k then some (B.ser d) else sget s (prefix_pk B.ns ++ key) := by
    rw [sget_sset]
    by_cases hk : key = k
    · rw [if_pos hk, if_pos (by rw [hk])]
    · rw [if_neg hk, if_neg (fun h => hk (List.append_cancel_left h)), sget_sset,
        if_neg (pk_ne_index_space B.ns key (B.indexer d) k)]
  by_cases hk : key = k
  · subst hk
    by_cases hi : idx = B.indexer d
    · subst hi
      rw [if_pos rfl]
      apply iff_of_true
      · rfl
      · exact ⟨d, ⟨B.ser d, by rw [hprim, if_pos rfl], hRT d⟩, rfl⟩
    · rw [if_neg (fun h => hi (index_space_inj B.ns idx (B.indexer d) key key hlen (hB d) h).1)]
      rw [hNo idx hlen]
      apply iff_of_false
      · simp
      · intro hex
        obtain ⟨v, ⟨b, hb, hdes⟩, hvi⟩ := hex
        rw [hprim, if_pos rfl] at hb
        obtain rfl : B.ser d = b := Option.some.inj hb
        rw [hRT d] at hdes
        obtain rfl : d = v := Option.some.inj hdes
        exact hi hvi.symm
  · rw [if_neg (fun h =>
      hk (index_space_inj B.ns idx (B.indexer d) key k hlen (hB d) h).2)]
    have hstore : ∀ v, storedAs B (sset (sset s (index_space B.ns (B.indexer d) ++ k) [49])
        (prefix_pk B.ns ++ k) (B.ser d)) key v ↔ storedAs B s key v := by
      intro v
      unfold storedAs
      rw [hprim, if_neg hk]
    simp only [hstore]
    exact hAway idx key hlen hk

theorem removePrim_inv {T : Type} (B : Bucket T) (s : Store) (k : Bytes)
    (hNo : NoIdx B s k) (hAway : InvAway B s k) :
    StrongInv B (remove_with_prefixed s (prefix_pk B.ns) k) := by
  intro idx key hlen
  unfold remove_with_prefixed
  rw [sget_serase, if_neg (index_ne_pk B idx key k)]
  by_cases hk : key = k
  · subst hk
    rw [hNo idx hlen]
    apply iff_of_false
    · simp
    · intro hex
      obtain ⟨v, ⟨b, hb, _⟩, _⟩ := hex
      rw [sget_serase, if_pos rfl] at hb
      exact Option.noConfusion hb
  · have hstore : ∀ v, storedAs B (serase s (prefix_pk B.ns ++ k)) key v ↔
        storedAs B s key v := by
      intro v
      unfold storedAs
      rw [sget_serase, if_neg (fun h => hk (List.append_cancel_left h))]
    simp only [hstore]
    exact hAway idx key hlen hk

theorem replace_inv {T : Type} (B : Bucket T) (s : Store) (k : Bytes)
    (hB : IdxBounded B) (hRT : RoundTrip B) (hInv : StrongInv B s)
    (data old : Option T) (hold : matchesStored B s k old) :
    StrongInv B (replace B s k data old) := by
  cases old with
  | none =>
    obtain ⟨hNo, hAway⟩ := clear_none B s k hInv hold
    cases data with
    | some d => exact writeNew_inv B s k d hB hRT hNo hAway
    | none => exact removePrim_inv B s k hNo hAway
  | some o =>
    obtain ⟨hNo, hAway⟩ := clear_some B s k o hB hInv hold
    cases data with
    | some d => exact writeNew_inv B _ k d hB hRT hNo hAway
    | none => exact removePrim_inv B _ k hNo hAway

theorem save_inv {T : Type} (B : Bucket T) (s : Store) (k : Bytes) (d : T)
    (hB : IdxBounded B) (hRT : RoundTrip B) (hInv : StrongInv B s)
    (u : Unit) (s2 : Store) (h : save B s k d = (Except.ok u, s2)) :
    StrongInv B s2 := by
  unfold save at h
  cases hml : may_load B s k with
  | error e =>
    rw [hml] at h
    exact Except.noConfusion (Prod.mk.injEq _ _ _ _ ▸ h).1
  | ok old =>
    rw [hml] at h
    obtain ⟨-, hs2⟩ := Prod.mk.injEq _ _ _ _ ▸ h
    exact hs2 ▸ replace_inv B s k hB hRT hInv (some d) old (may_load_ok_matches B s k old hml)

theorem remove_inv {T : Type} (B : Bucket T) (s : Store) (k : Bytes)
    (hB : IdxBounded B) (hRT : RoundTrip B) (hInv : StrongInv B s)
    (u : Unit) (s2 : Store) (h : remove B s k = (Except.ok u, s2)) :
    StrongInv B s2 := by
  unfold remove at h
  cases hml : may_load B s k with
  | error e =>
    rw [hml] at h
    exact Except.noConfusion (Prod.mk.injEq _ _ _ _ ▸ h).1
  | ok old =>
    rw [hml] at h
    obtain ⟨-, hs2⟩ := Prod.mk.injEq _ _ _ _ ▸ h
    exact hs2 ▸ replace_inv B s k hB hRT hInv none old (may_load_ok_matches B s k old hml)

theorem update_inv {T E : Type} (B : Bucket T) (fromStd : StdErr → E) (s : Store) (k : Bytes)
    (action : Option T → Except E T)
    (hB : IdxBounded B) (hRT : RoundTrip B) (hInv : StrongInv B s)
    (out : T) (s2 : Store) (h : update B fromStd s k action = (Except.ok out, s2)) :
    StrongInv B s2 := by
  unfold update at h
  cases hml : may_load B s k with
  | error e =>
    rw [hml] at h
    exact Except.noConfusion (Prod.mk.injEq _ _ _ _ ▸ h).1
  | ok input =>
    cases ha : action input with
    | error e =>
      simp only [hml, ha] at h
      exact Except.noConfusion (Prod.mk.injEq _ _ _ _ ▸ h).1
    | ok output =>
      simp only [hml, ha] at h
      obtain ⟨-, hs2⟩ := Prod.mk.injEq _ _ _ _ ▸ h
      subst hs2
      cases input with
      | none =>
        obtain ⟨hNo, hAway⟩ :=
          clear_none B s k hInv (may_load_ok_matches B s k none hml)
        exact writeNew_inv B s k output hB hRT hNo hAway
      | some o =>
        obtain ⟨hNo, hAway⟩ :=
          clear_some B s k o hB hInv (may_load_ok_matches B s k (some o) hml)
        exact writeNew_inv B _ k output hB hRT hNo hAway

/-- C2: after every completed mutating call — save, remove, or update with any pk and
value, and replace under the precondition that the supplied old_data equals the value
actually stored at pk beforehand — every pk that holds a stored value v has exactly one
index entry, at key (indexer v, pk), and no index entry under any other index value. -/
theorem mutators_preserve_index_invariant {T : Type} (B : Bucket T)
    (hB : IdxBounded B) (hRT : RoundTrip B)
    (s : Store) (hInv : StrongInv B s) (k : Bytes) :
    (∀ (d : T) (u : Unit) (s2 : Store), save B s k d = (Except.ok u, s2) →
      StrongInv B s2 ∧ IndexConsistent B s2) ∧
    (∀ (u : Unit) (s2 : Store), remove B s k = (Except.ok u, s2) →
      StrongInv B s2 ∧ IndexConsistent B s2) ∧
    (∀ (E : Type) (fromStd : StdErr → E) (action : Option T → Except E T) (out : T)
      (s2 : Store), update B fromStd s k action = (Except.ok out, s2) →
      StrongInv B s2 ∧ IndexConsistent B s2) ∧
    (∀ (data old : Option T), matchesStored B s k old →
      StrongInv B (replace B s k data old) ∧ IndexConsistent B (replace B s k data old)) := by
  refine ⟨fun d u s2 h => ?_, fun u s2 h => ?_, fun E fromStd action out s2 h => ?_,
    fun data old hold => ?_⟩
  · have h2 := save_inv B s k d hB hRT hInv u s2 h
    exact ⟨h2, strongInv_indexConsistent B s2 hB h2⟩
  · have h2 := remove_inv B s k hB hRT hInv u s2 h
    exact ⟨h2, strongInv_indexConsistent B s2 hB h2⟩
  · have h2 := update_inv B fromStd s k action hB hRT hInv out s2 h
    exact ⟨h2, strongInv_indexConsistent B s2 hB h2⟩
  · have h2 := replace_inv B s k hB hRT hInv data old hold
    exact ⟨h2, strongInv_indexConsistent B _ hB h2⟩

/- Concrete instantiation used by the witnesses: values are naturals, serialized as a
singleton byte list (so any other byte list is malformed), indexed by parity. -/

def natDeser : Bytes → Option Nat
  | [n] => some n
  | _ => none

def demoBucket : Bucket Nat :=
  { ser := fun n => [n], deser := natDeser, indexer := fun n => [n % 2], ns := [100] }

theorem strongInv_nil {T : Type} (B : Bucket T) : StrongInv B [] := by
  intro idx key _
  simp [sget, storedAs]

theorem demoBucket_idx_bounded : IdxBounded demoBucket := by
  intro v
  show ([v % 2] : Bytes).length < 65536
  simp

theorem demoBucket_round_trip : RoundTrip demoBucket := fun _ => rfl

theorem mutators_preserve_index_invariant_witness :
    StrongInv demoBucket ((save demoBucket [] [7] 3).2) ∧
    IndexConsistent demoBucket ((save demoBucket [] [7] 3).2) :=
  (mutators_preserve_index_invariant demoBucket demoBucket_idx_bounded demoBucket_round_trip
    [] (strongInv_nil demoBucket) [7]).1 3 () ((save demoBucket [] [7] 3).2) rfl

/-- Helper: after replace with new data, the primary entry holds the serialized data. -/
theorem sget_replace_some {T : Type} (B : Bucket T) (s : Store) (k : Bytes) (d : T)
    (old : Option T) :
    sget (replace B s k (some d) old) (prefix_pk B.ns ++ k) = some (B.ser d) := by
  cases old with
  | none =>
    unfold replace add_to_index set_with_prefixed
    rw [sget_sset, if_pos rfl]
  | some o =>
    unfold replace add_to_index set_with_prefixed
    rw [sget_sset, if_pos rfl]

/-- Modelled from the spec: the sequence may_load(pk), then action on the loaded
value, then save(pk, result) of the successful result, storage errors being converted
into the caller error type.  This is the reference behaviour update must match. -/
def update_spec_seq {T E : Type} (B : Bucket T) (fromStd : StdErr → E) (s : Store)
    (key : Bytes) (action : Option T → Except E T) : Except E T × Store :=
  match may_load B s key with
  | Except.error e => (Except.error (fromStd e), s)
  | Except.ok input =>
    match action input with
    | Except.error e => (Except.error e, s)
    | Except.ok output =>
      match save B s key output with
      | (Except.ok _, s2) => (Except.ok output, s2)
      | (Except.error e, s2) => (Except.error (fromStd e), s2)

/-- C3: update(pk, action) is observationally equivalent to may_load(pk), then the
action, then save(pk, result): the results and the final stores are equal, and on
success no stale index entry for the old index value of pk remains. -/
theorem update_equiv_load_action_save {T E : Type} (B : Bucket T)
    (hB : IdxBounded B) (fromStd : StdErr → E) (s : Store) (k : Bytes)
    (action : Option T → Except E T) :
    update B fromStd s k action = update_spec_seq B fromStd s k action ∧
    (∀ (o out : T) (s2 : Store), may_load B s k = Except.ok (some o) →
      update B fromStd s k action = (Except.ok out, s2) →
      B.indexer o ≠ B.indexer out →
      sget s2 (index_space B.ns (B.indexer o) ++ k) = none) := by
  constructor
  · unfold update update_spec_seq save
    cases hml : may_load B s k with
    | error e => simp only
    | ok input =>
      cases ha : action input with
      | error e => simp only [ha]
      | ok output =>
        simp only [ha]
        cases input with
        | none => rfl
        | some o => rfl
  · intro o out s2 hml hupd hne
    unfold update at hupd
    cases ha : action (some o) with
    | error e =>
      simp only [hml, ha] at hupd
      exact Except.noConfusion (Prod.mk.injEq _ _ _ _ ▸ hupd).1
    | ok output =>
      simp only [hml, ha] at hupd
      obtain ⟨hout, hs2⟩ := Prod.mk.injEq _ _ _ _ ▸ hupd
      have hne2 : B.indexer o ≠ B.indexer output :=
        fun h => hne (h.trans (congrArg B.indexer (Except.ok.inj hout)))
      subst hs2
      unfold replace remove_from_index remove_with_prefixed add_to_index set_with_prefixed
      rw [sget_sset, if_neg (index_ne_pk B (B.indexer o) k k), sget_sset,
        if_neg (fun h =>
          hne2 (index_space_inj B.ns (B.indexer o) (B.indexer output) k k
            (hB o) (hB output) h).1)]
      show sget (serase s (index_space B.ns (B.indexer o) ++ k))
        (index_space B.ns (B.indexer o) ++ k) = none
      rw [sget_serase, if_pos rfl]

theorem update_equiv_load_action_save_witness :
    update demoBucket (fun _ => 0) ((save demoBucket [] [7] 1).2) [7]
        (fun _ => Except.ok 2) =
      update_spec_seq demoBucket (fun _ => 0) ((save demoBucket [] [7] 1).2) [7]
        (fun _ => Except.ok 2) ∧
    sget ((update demoBucket (fun _ => 0) ((save demoBucket [] [7] 1).2) [7]
        (fun _ => Except.ok 2)).2)
      (index_space demoBucket.ns (demoBucket.indexer 1) ++ [7]) = none := by
  have H := update_equiv_load_action_save demoBucket demoBucket_idx_bounded
    (fun _ => (0 : Nat)) ((save demoBucket [] [7] 1).2) [7] (fun _ => Except.ok 2)
  exact ⟨H.1, H.2 1 2 _ rfl rfl (by decide)⟩

/-- C4: when the action fails, update propagates the action's error through the
caller-defined error type and performs no writes: the store is returned unchanged. -/
theorem update_action_error_no_side_effects {T E : Type} (B : Bucket T)
    (fromStd : StdErr → E) (s : Store) (k : Bytes) (action : Option T → Except E T)
    (input : Option T) (e : E)
    (hml : may_load B s k = Except.ok input) (ha : action input = Except.error e) :
    update B fromStd s k action = (Except.error e, s) := by
  unfold update
  simp only [hml, ha]

theorem update_action_error_no_side_effects_witness :
    update demoBucket (fun _ => (0 : Nat)) [] [3] (fun _ => Except.error 42) =
      (Except.error 42, []) :=
  update_action_error_no_side_effects demoBucket (fun _ => 0) [] [3]
    (fun _ => Except.error 42) none 42 rfl rfl

/-- C5: a successful save followed by may_load returns the saved value: the value
round-trips through serialization and the primary store. -/
theorem save_then_may_load {T : Type} (B : Bucket T) (s : Store) (k : Bytes) (d : T)
    (hRT : B.deser (B.ser d) = some d) (u : Unit) (s2 : Store)
    (h : save B s k d = (Except.ok u, s2)) :
    may_load B s2 k = Except.ok (some d) := by
  unfold save at h
  cases hml : may_load B s k with
  | error e =>
    rw [hml] at h
    exact Except.noConfusion (Prod.mk.injEq _ _ _ _ ▸ h).1
  | ok old =>
    rw [hml] at h
    obtain ⟨-, hs2⟩ := Prod.mk.injEq _ _ _ _ ▸ h
    subst hs2
    exact (may_load_ok_some B _ k d).mpr ⟨B.ser d, sget_replace_some B s k d old, hRT⟩

theorem save_then_may_load_witness :
    may_load demoBucket ((save demoBucket [] [4] 9).2) [4] = Except.ok (some 9) :=
  save_then_may_load demoBucket [] [4] 9 rfl () ((save demoBucket [] [4] 9).2) rfl

/-- C7: after a successful remove the primary entry is empty, the index entry of the
former value is gone, and a second remove succeeds leaving the store unchanged. -/
theorem remove_then_empty_and_idempotent {T : Type} (B : Bucket T) (s : Store) (k : Bytes)
    (u : Unit) (s2 : Store) (h : remove B s k = (Except.ok u, s2)) :
    may_load B s2 k = Except.ok none ∧
    (∀ o : T, may_load B s k = Except.ok (some o) →
      sget s2 (index_space B.ns (B.indexer o) ++ k) = none) ∧
    remove B s2 k = (Except.ok (), s2) := by
  unfold remove at h
  cases hml : may_load B s k with
  | error e =>
    rw [hml] at h
    exact Except.noConfusion (Prod.mk.injEq _ _ _ _ ▸ h).1
  | ok old =>
    rw [hml] at h
    obtain ⟨-, hs2⟩ := Prod.mk.injEq _ _ _ _ ▸ h
    subst hs2
    have hprim : sget (replace B s k none old) (prefix_pk B.ns ++ k) = none := by
      cases old with
      | none =>
        unfold replace remove_with_prefixed
        rw [sget_serase, if_pos rfl]
      | some o =>
        unfold replace remove_from_index remove_with_prefixed
        rw [sget_serase, if_pos rfl]
    refine ⟨(may_load_ok_none B _ k).mpr hprim, ?_, ?_⟩
    · intro o hmlo
      have hold : old = some o := Except.ok.inj hmlo
      subst hold
      unfold replace remove_from_index remove_with_prefixed
      rw [sget_serase, if_neg (index_ne_pk B (B.indexer o) k k), sget_serase, if_pos rfl]
    · unfold remove
      have h2 : may_load B (replace B s k none old) k = Except.ok none :=
        (may_load_ok_none B _ k).mpr hprim
      simp only [h2]
      show (Except.ok (), serase (replace B s k none old) (prefix_pk B.ns ++ k)) =
        (Except.ok (), replace B s k none old)
      rw [serase_eq_self _ _ hprim]

theorem remove_then_empty_and_idempotent_witness :
    may_load demoBucket ((remove demoBucket ((save demoBucket [] [5] 2).2) [5]).2) [5] =
      Except.ok none ∧
    sget ((remove demoBucket ((save demoBucket [] [5] 2).2) [5]).2)
      (index_space demoBucket.ns (demoBucket.indexer 2) ++ [5]) = none ∧
    remove demoBucket ((remove demoBucket ((save demoBucket [] [5] 2).2) [5]).2) [5] =
      (Except.ok (), (remove demoBucket ((save demoBucket [] [5] 2).2) [5]).2) := by
  have H := remove_then_empty_and_idempotent demoBucket ((save demoBucket [] [5] 2).2) [5]
    () ((remove demoBucket ((save demoBucket [] [5] 2).2) [5]).2) rfl
  exact ⟨H.1, H.2.1 2 rfl, H.2.2⟩

/-- C8: load fails with NotFound on a missing entry and with Deserialization on
malformed bytes; may_load returns empty (not an error) when missing and still fails
with Deserialization on malformed bytes. -/
theorem load_may_load_error_modes {T : Type} (B : Bucket T) (s : Store) (k : Bytes) :
    (sget s (prefix_pk B.ns ++ k) = none →
      load B s k = Except.error StdErr.notFound ∧ may_load B s k = Except.ok none) ∧
    (∀ b, sget s (prefix_pk B.ns ++ k) = some b → B.deser b = none →
      load B s k = Except.error StdErr.deserialization ∧
      may_load B s k = Except.error StdErr.deserialization) := by
  constructor
  · intro h
    unfold load may_load get_with_prefixed must_deserialize may_deserialize
    constructor <;> simp only [h]
  · intro b hb hd
    unfold load may_load get_with_prefixed must_deserialize may_deserialize
    constructor <;> simp only [hb, hd]

/-- Store holding malformed bytes at primary key [6] of the demo bucket. -/
def malStore : Store := [(prefix_pk [100] ++ [6], [1, 2])]

theorem load_may_load_error_modes_witness :
    (load demoBucket [] [6] = Except.error StdErr.notFound ∧
      may_load demoBucket [] [6] = Except.ok none) ∧
    (load demoBucket malStore [6] = Except.error StdErr.deserialization ∧
      may_load demoBucket malStore [6] = Except.error StdErr.deserialization) :=
  ⟨(load_may_load_error_modes demoBucket [] [6]).1 rfl,
    (load_may_load_error_modes demoBucket malStore [6]).2 [1, 2] rfl rfl⟩

/- Decompositions of the composite prefixes, used for the prefix-freedom claim. -/

theorem prefix_pk_decomp (ns a : Bytes) :
    prefix_pk ns ++ a = to_length_prefixed ns ++ (to_length_prefixed [112, 107] ++ a) := by
  simp [prefix_pk, to_length_prefixed_nested]

theorem index_space_decomp (ns i a : Bytes) :
    index_space ns i ++ a =
      to_length_prefixed ns ++
        (to_length_prefixed [105, 100, 120] ++ (to_length_prefixed i ++ a)) := by
  simp [index_space, prefix_idx, to_length_prefixed_nested]

theorem framed_ns_disjoint (ns1 ns2 a b : Bytes) (h1 : ns1.length < 65536)
    (h2 : ns2.length < 65536) (hne : ns1 ≠ ns2) :
    to_length_prefixed ns1 ++ a ≠ to_length_prefixed ns2 ++ b :=
  fun h => hne (framed_append_inj ns1 ns2 a b h1 h2 h).1

/-- C9: a full primary key can never equal or be a prefix of an index key of the same
bucket, and buckets with different namespaces produce disjoint key spaces, whatever
the byte content of namespaces, index values and primary keys. -/
theorem subspace_prefix_freedom (ns1 ns2 : Bytes)
    (h1 : ns1.length < 65536) (h2 : ns2.length < 65536) :
    (∀ pk idx pk2 : Bytes,
      List.isPrefixOf (prefix_pk ns1 ++ pk) (index_space ns1 idx ++ pk2) = false ∧
      prefix_pk ns1 ++ pk ≠ index_space ns1 idx ++ pk2) ∧
    (ns1 ≠ ns2 →
      (∀ a b : Bytes, prefix_pk ns1 ++ a ≠ prefix_pk ns2 ++ b) ∧
      (∀ i a j b : Bytes, index_space ns1 i ++ a ≠ index_space ns2 j ++ b) ∧
      (∀ a j b : Bytes, prefix_pk ns1 ++ a ≠ index_space ns2 j ++ b)) := by
  constructor
  · intro pk idx pk2
    constructor
    · rw [Bool.eq_false_iff]
      intro hpre
      obtain ⟨t, ht⟩ := List.isPrefixOf_iff_prefix.mp hpre
      rw [List.append_assoc] at ht
      exact pk_ne_index_space ns1 (pk ++ t) idx pk2 ht
    · exact pk_ne_index_space ns1 pk idx pk2
  · intro hne
    refine ⟨fun a b h => ?_, fun i a j b h => ?_, fun a j b h => ?_⟩
    · rw [prefix_pk_decomp, prefix_pk_decomp] at h
      exact framed_ns_disjoint ns1 ns2 _ _ h1 h2 hne h
    · rw [index_space_decomp, index_space_decomp] at h
      exact framed_ns_disjoint ns1 ns2 _ _ h1 h2 hne h
    · rw [prefix_pk_decomp, index_space_decomp] at h
      exact framed_ns_disjoint ns1 ns2 _ _ h1 h2 hne h

theorem subspace_prefix_freedom_witness :
    List.isPrefixOf (prefix_pk [1] ++ [3]) (index_space [1] [4] ++ [5]) = false ∧
    prefix_pk [1] ++ [3] ≠ index_space [2] [4] ++ [5] := by
  have H := subspace_prefix_freedom [1] [2] (by decide) (by decide)
  exact ⟨(H.1 [3] [4] [5]).1, (H.2 (by decide)).2.2 [3] [4] [5]⟩

/-- C10: with malformed bytes stored at pk, save and remove both fail with a
Deserialization error before any write (the store is unchanged), while a direct
replace with no old_data still overwrites the entry. -/
theorem corrupted_entry_blocks_save_remove {T : Type} (B : Bucket T) (s : Store)
    (k b : Bytes) (hb : sget s (prefix_pk B.ns ++ k) = some b) (hd : B.deser b = none)
    (d : T) :
    save B s k d = (Except.error StdErr.deserialization, s) ∧
    remove B s k = (Except.error StdErr.deserialization, s) ∧
    (B.deser (B.ser d) = some d →
      may_load B (replace B s k (some d) none) k = Except.ok (some d)) := by
  have hml : may_load B s k = Except.error StdErr.deserialization := by
    unfold may_load get_with_prefixed may_deserialize
    simp only [hb, hd]
  refine ⟨?_, ?_, ?_⟩
  · unfold save
    simp only [hml]
  · unfold remove
    simp only [hml]
  · intro hrt
    exact (may_load_ok_some B _ k d).mpr ⟨B.ser d, sget_replace_some B s k d none, hrt⟩

theorem corrupted_entry_blocks_save_remove_witness :
    save demoBucket malStore [6] 9 = (Except.error StdErr.deserialization, malStore) ∧
    remove demoBucket malStore [6] = (Except.error StdErr.deserialization, malStore) ∧
    may_load demoBucket (replace demoBucket malStore [6] (some 9) none) [6] =
      Except.ok (some 9) := by
  have H := corrupted_entry_blocks_save_remove demoBucket malStore [6] [1, 2] rfl rfl 9
  exact ⟨H.1, H.2.1, H.2.2 rfl⟩

/-- C1: demonstration that pks_by_index computes its scan upper bound by a naive
single-byte increment.  With index value [255] the encoded prefix ends in a maximum
byte: the source's bound (bump_last) wraps that byte to 0 and falls below the start
of the range, so the scan misses the stored entry, while the spec's carry-aware
successor (prefix_upper_bound) strictly contains it. -/
theorem pks_by_index_naive_bound_bug :
    bump_last (index_space [100] [255]) = [0, 1, 100, 0, 3, 105, 100, 120, 0, 1, 0] ∧
    lexLt (bump_last (index_space [100] [255])) (index_space [100] [255]) = true ∧
    prefix_upper_bound (index_space [100] [255]) =
      some [0, 1, 100, 0, 3, 105, 100, 120, 0, 2] ∧
    lexLe (index_space [100] [255]) (index_space [100] [255] ++ [7]) = true ∧
    lexLt (index_space [100] [255] ++ [7]) [0, 1, 100, 0, 3, 105, 100, 120, 0, 2] = true ∧
    pks_by_index demoBucket [(index_space [100] [255] ++ [7], [49])] [255] = [] := by
  refine ⟨rfl, rfl, rfl, rfl, rfl, ?_⟩
  decide

/-- Bucket whose indexer is the constant index value [118, 101, 103], mirroring the
spec's category example, over the same namespace as the demo bucket. -/
def vegBucket : Bucket Nat :=
  { ser := fun n => [n], deser := natDeser, indexer := fun _ => [118, 101, 103],
    ns := [100] }

/-- Store obtained by saving value 7 at pk [2] and then value 5 at pk [1]. -/
def vegStore : Store := (save vegBucket (save vegBucket [] [2] 7).2 [1] 5).2

/-- C6: demonstration that pks_by_index does not yield the stored pks.  Both saves
succeed and both index entries exist under the index value [118, 101, 103], yet
pks_by_index yields the empty list (the source passes absolute bounds where the
sub-space scan expects prefix-relative ones, and bumps the last byte naively),
instead of the two bare pks [1] and [2] in ascending order. -/
theorem pks_by_index_misses_entries :
    (save vegBucket [] [2] 7).1 = Except.ok () ∧
    (save vegBucket (save vegBucket [] [2] 7).2 [1] 5).1 = Except.ok () ∧
    sget vegStore (index_space [100] [118, 101, 103] ++ [1]) = some [49] ∧
    sget vegStore (index_space [100] [118, 101, 103] ++ [2]) = some [49] ∧
    pks_by_index vegBucket vegStore [118, 101, 103] = [] ∧
    pks_by_index vegBucket vegStore [118, 101, 103] ≠ [[1], [2]] := by
  refine ⟨rfl, rfl, ?_, ?_, ?_, ?_⟩ <;> decide
